import Mathlib

/-!
Shallow embedding of the in-memory LRU cache with TTL (src/cache.py).

Modelling choices:
* `time.time()` is modelled as an explicit `now : Nat` argument threaded into
  every operation that reads the clock.
* The Python `dict` `self.cache` is modelled as an association list
  `List (String × CacheNode α)` with unique keys; `del` removes the (single)
  binding of a key, in-place node mutation on update rewrites the binding.
* The doubly linked recency list (between the sentinel `head` and `tail`) is
  modelled by the list of keys of its non-sentinel nodes, most-recently-used
  first: `_add_to_front` is `cons`, splicing a node out (`_remove_node`) is
  removal of that node's (unique) occurrence, `tail.prev` is the last element.
* `put` raises `ValueError` on a `None` or empty key: it is modelled as
  returning `Except String Unit` together with the (unchanged, on error)
  state; the key argument is `Option String` so that the `None` case of the
  Python check `key is None or key == ""` is representable.
* Python float statistics are modelled with `ℚ`.
* The background cleanup thread and locking are concurrency and are not part
  of this embedding; every modelled operation is the body it runs under the
  lock.
-/

/-- One cache node's payload: `value` and `expiry` (`CacheNode.value`,
`CacheNode.expiry` in the source; `expiry = 0` means no expiration).
The node's `key` is the association-list key; `prev`/`next` are represented
by the node's position in the recency list. -/
structure CacheNode (α : Type) where
  value : α
  expiry : Nat
  deriving DecidableEq, Repr

/-- The state of one `ThreadSafeCache` instance: configuration, the lookup
index (`self.cache`), the recency sequence (the doubly linked list, keys
most-recently-used first), and the statistics counters. -/
structure CacheState (α : Type) where
  max_size : Nat
  default_ttl : Option Nat
  cache : List (String × CacheNode α)
  order : List String
  hits : Nat
  misses : Nat
  evictions : Nat
  expired_removals : Nat
  cleanup_interval : Nat
  deriving DecidableEq, Repr

/-- The statistics snapshot returned by `get_stats` (`CacheStats` in the
source). -/
structure CacheStats where
  hits : Nat
  misses : Nat
  hit_rate : ℚ
  total_requests : Nat
  current_size : Nat
  evictions : Nat
  expired_removals : Nat
  deriving DecidableEq, Repr

namespace ThreadSafeCache

/-- Python dict lookup `self.cache[key]` / membership `key in self.cache`. -/
def lookupKey {α : Type} : List (String × CacheNode α) → String → Option (CacheNode α)
  | [], _ => none
  | (k', n) :: rest, k => if k' = k then some n else lookupKey rest k

/-- Python `del self.cache[key]`: drop the (unique) binding of `key`. -/
def delKey {α : Type} : List (String × CacheNode α) → String → List (String × CacheNode α)
  | [], _ => []
  | (k', n) :: rest, k => if k' = k then rest else (k', n) :: delKey rest k

/-- In-place node mutation `node.value = value; node.expiry = expiry` for a
key already bound in the dict: rewrite that binding's node. -/
def updateKey {α : Type} : List (String × CacheNode α) → String → CacheNode α →
    List (String × CacheNode α)
  | [], _, _ => []
  | (k', n) :: rest, k, nn => if k' = k then (k, nn) :: rest else (k', n) :: updateKey rest k nn

/-- `_remove_node`: splice a node out of the doubly linked list. On the
key-list view this removes that node's occurrence (unique under the
map/list consistency invariant). -/
def removeNode : List String → String → List String
  | [], _ => []
  | x :: rest, k => if x = k then rest else x :: removeNode rest k

/-- `_add_to_front`: insert a node right after the sentinel head
(most-recently-used position). -/
def addToFront (order : List String) (k : String) : List String := k :: order

/-- `_is_expired`: `node.expiry > 0 and time.time() > node.expiry`. -/
def isExpired {α : Type} (node : CacheNode α) (now : Nat) : Bool :=
  decide (node.expiry > 0) && decide (now > node.expiry)

/-- `_evict_lru`: unless the dict is empty or the list is empty
(`lru_node == self.head`), splice out `self.tail.prev` (the last
non-sentinel node), delete its key from the dict, bump `evictions`. -/
def evictLRU {α : Type} (s : CacheState α) : CacheState α :=
  if s.cache.isEmpty then s
  else
    match s.order.getLast? with
    | none => s
    | some lruKey =>
      { s with order := s.order.dropLast,
               cache := delKey s.cache lruKey,
               evictions := s.evictions + 1 }

/-- `__init__(max_size, default_ttl)`: empty dict, sentinels linked to each
other (empty recency list), all counters zero, `cleanup_interval`
hard-coded to `60`. The Python defaults are `max_size=1000`,
`default_ttl=None` (see `create_cache_default`). -/
def init (α : Type) (max_size : Nat) (default_ttl : Option Nat) : CacheState α :=
  { max_size := max_size
    default_ttl := default_ttl
    cache := []
    order := []
    hits := 0
    misses := 0
    evictions := 0
    expired_removals := 0
    cleanup_interval := 60 }

/-- `create_cache(max_size=1000, default_ttl=None)` called with both
arguments. -/
def create_cache (α : Type) (max_size : Nat) (default_ttl : Option Nat) : CacheState α :=
  init α max_size default_ttl

/-- `create_cache()` called with no arguments: the Python defaults
`max_size=1000`, `default_ttl=None`. -/
def create_cache_default (α : Type) : CacheState α := create_cache α 1000 none

/-- Lines 74-79 of `put`: `expiry = 0`, overridden by `time.time() + ttl`
when an explicit `ttl` is given, else by `time.time() + default_ttl` when
the cache has a default. -/
def resolveExpiry {α : Type} (s : CacheState α) (ttl : Option Nat) (now : Nat) : Nat :=
  match ttl with
  | some t => now + t
  | none =>
    match s.default_ttl with
    | some d => now + d
    | none => 0

/-- `put(key, value, ttl)`. Raises (returns `.error`) iff the key is `None`
or empty, before any mutation. Otherwise resolves the expiry
(explicit ttl, else default_ttl, else the sentinel 0), then either updates
the existing node in place and promotes it, or inserts a fresh node at the
front and evicts the LRU node when the size now exceeds `max_size`. -/
def put {α : Type} (s : CacheState α) (key : Option String) (value : α)
    (ttl : Option Nat) (now : Nat) : Except String Unit × CacheState α :=
  match key with
  | none => (.error "Key cannot be None or empty", s)
  | some k =>
    if k = "" then (.error "Key cannot be None or empty", s)
    else
      let expiry : Nat := resolveExpiry s ttl now
      match lookupKey s.cache k with
      | some _ =>
        (.ok (),
          { s with cache := updateKey s.cache k ⟨value, expiry⟩,
                   order := addToFront (removeNode s.order k) k })
      | none =>
        let s' := { s with cache := (k, (⟨value, expiry⟩ : CacheNode α)) :: s.cache,
                           order := addToFront s.order k }
        if s'.cache.length > s'.max_size then (.ok (), evictLRU s') else (.ok (), s')

/-- `get(key)`: miss on an absent key; on an expired key remove the entry,
bump `expired_removals` and `misses`, return `none`; otherwise promote the
node to the front, bump `hits`, return its value. -/
def get {α : Type} (s : CacheState α) (key : String) (now : Nat) :
    Option α × CacheState α :=
  match lookupKey s.cache key with
  | some node =>
    if isExpired node now then
      (none,
        { s with order := removeNode s.order key,
                 cache := delKey s.cache key,
                 expired_removals := s.expired_removals + 1,
                 misses := s.misses + 1 })
    else
      (some node.value,
        { s with order := addToFront (removeNode s.order key) key,
                 hits := s.hits + 1 })
  | none => (none, { s with misses := s.misses + 1 })

/-- `delete(key)`: remove the node from list and dict when present and
return whether it was. -/
def delete {α : Type} (s : CacheState α) (key : String) : Bool × CacheState α :=
  match lookupKey s.cache key with
  | some _ =>
    (true, { s with order := removeNode s.order key, cache := delKey s.cache key })
  | none => (false, s)

/-- `clear()`: empty the dict and relink the sentinels to each other. -/
def clear {α : Type} (s : CacheState α) : CacheState α :=
  { s with cache := [], order := [] }

/-- `get_stats()`: pure snapshot of the counters, with
`hit_rate = hits / (hits + misses)` (0 when there were no requests) and
`current_size = len(self.cache)`. -/
def get_stats {α : Type} (s : CacheState α) : CacheStats :=
  let total_requests := s.hits + s.misses
  { hits := s.hits
    misses := s.misses
    hit_rate := if total_requests > 0 then (s.hits : ℚ) / (total_requests : ℚ) else 0
    total_requests := total_requests
    current_size := s.cache.length
    evictions := s.evictions
    expired_removals := s.expired_removals }

/-- `_cleanup_expired()`: one sweep of the background reaper, removing every
expired entry and counting each in `expired_removals`. -/
def cleanupExpired {α : Type} (s : CacheState α) (now : Nat) : CacheState α :=
  let expiredKeys := (s.cache.filter (fun p => isExpired p.2 now)).map Prod.fst
  { s with cache := expiredKeys.foldl (fun c k => delKey c k) s.cache,
           order := expiredKeys.foldl (fun o k => removeNode o k) s.order,
           expired_removals := s.expired_removals + expiredKeys.length }

/-- Map/list consistency (spec invariants 1 and 2): the dict's keys are a
permutation of the recency list and the recency list has no duplicates, so
the two sizes agree and every indexed node is reachable exactly once, with
no orphans in either direction. -/
def consistent {α : Type} (s : CacheState α) : Prop :=
  List.Perm (s.cache.map Prod.fst) s.order ∧ s.order.Nodup

instance {α : Type} (s : CacheState α) : Decidable (consistent s) := by
  unfold consistent; infer_instance

/-- One public mutating call, with its clock argument where the source reads
the clock. -/
inductive Op (α : Type) where
  | put (key : Option String) (value : α) (ttl : Option Nat) (now : Nat)
  | get (key : String) (now : Nat)
  | delete (key : String)
  | clear

/-- Apply one public call to the state (dropping the returned value). -/
def applyOp {α : Type} (s : CacheState α) : Op α → CacheState α
  | .put k v t n => (put s k v t n).2
  | .get k n => (get s k n).2
  | .delete k => (delete s k).2
  | .clear => clear s

/-- Run a sequence of public calls from a starting state. -/
def run {α : Type} (s : CacheState α) : List (Op α) → CacheState α
  | [] => s
  | op :: ops => run (applyOp s op) ops

/-- Whether a call is a `get`. -/
def isGet {α : Type} : Op α → Bool
  | .get _ _ => true
  | _ => false

end ThreadSafeCache

/-! ### List-level helper lemmas -/

namespace ThreadSafeCache

theorem removeNode_eq_erase (l : List String) (k : String) : removeNode l k = l.erase k := by
  induction l with
  | nil => rfl
  | cons x rest ih =>
    rw [removeNode, List.erase_cons]
    by_cases h : x = k
    · simp [h]
    · simp [h, ih]

theorem map_fst_delKey {α : Type} (c : List (String × CacheNode α)) (k : String) :
    (delKey c k).map Prod.fst = removeNode (c.map Prod.fst) k := by
  induction c with
  | nil => rfl
  | cons p rest ih =>
    obtain ⟨k', n⟩ := p
    rw [delKey, List.map_cons, removeNode]
    by_cases h : k' = k
    · simp [h]
    · simp [h, ih]

theorem map_fst_updateKey {α : Type} (c : List (String × CacheNode α)) (k : String)
    (nn : CacheNode α) : (updateKey c k nn).map Prod.fst = c.map Prod.fst := by
  induction c with
  | nil => rfl
  | cons p rest ih =>
    obtain ⟨k', n⟩ := p
    rw [updateKey]
    by_cases h : k' = k
    · simp [h]
    · simp [h, ih]

theorem length_updateKey {α : Type} (c : List (String × CacheNode α)) (k : String)
    (nn : CacheNode α) : (updateKey c k nn).length = c.length := by
  have := congrArg List.length (map_fst_updateKey c k nn)
  simpa using this

theorem lookupKey_eq_none_iff {α : Type} (c : List (String × CacheNode α)) (k : String) :
    lookupKey c k = none ↔ k ∉ c.map Prod.fst := by
  induction c with
  | nil => simp [lookupKey]
  | cons p rest ih =>
    obtain ⟨k', n⟩ := p
    by_cases h : k' = k
    · subst h
      simp [lookupKey]
    · rw [lookupKey, if_neg h]
      simp only [List.map_cons, List.mem_cons]
      rw [ih]
      constructor
      · intro hnone hmem
        rcases hmem with hm | hm
        · exact h hm.symm
        · exact hnone hm
      · intro hmem hm
        exact hmem (Or.inr hm)

theorem lookupKey_mem {α : Type} {c : List (String × CacheNode α)} {k : String}
    {n : CacheNode α} (h : lookupKey c k = some n) : k ∈ c.map Prod.fst := by
  by_contra hk
  rw [← lookupKey_eq_none_iff] at hk
  rw [hk] at h
  exact Option.noConfusion h

theorem length_delKey_of_mem {α : Type} {c : List (String × CacheNode α)} {k : String}
    (h : k ∈ c.map Prod.fst) : (delKey c k).length + 1 = c.length := by
  induction c with
  | nil => simp at h
  | cons p rest ih =>
    obtain ⟨k', n⟩ := p
    rw [delKey]
    by_cases hk : k' = k
    · simp [hk]
    · simp only [List.map_cons, List.mem_cons] at h
      rcases h with h | h
      · exact absurd h.symm hk
      · simp [hk, ih h]

theorem lookupKey_delKey_ne {α : Type} (c : List (String × CacheNode α)) {a b : String}
    (h : b ≠ a) : lookupKey (delKey c a) b = lookupKey c b := by
  induction c with
  | nil => rfl
  | cons p rest ih =>
    obtain ⟨k', n⟩ := p
    by_cases hk : k' = a
    · subst hk
      rw [delKey, if_pos rfl]
      conv_rhs => rw [lookupKey]
      rw [if_neg (fun hh => h hh.symm)]
    · rw [delKey, if_neg hk]
      rw [lookupKey, lookupKey]
      by_cases hb : k' = b
      · simp [hb]
      · simp [hb, ih]

theorem lookupKey_delKey_self {α : Type} {c : List (String × CacheNode α)} (k : String)
    (h : (c.map Prod.fst).Nodup) : lookupKey (delKey c k) k = none := by
  rw [lookupKey_eq_none_iff, map_fst_delKey, removeNode_eq_erase]
  intro hmem
  rw [h.mem_erase_iff] at hmem
  exact hmem.1 rfl

theorem lookupKey_updateKey_self {α : Type} {c : List (String × CacheNode α)} {k : String}
    {n : CacheNode α} (nn : CacheNode α) (h : lookupKey c k = some n) :
    lookupKey (updateKey c k nn) k = some nn := by
  induction c with
  | nil => exact Option.noConfusion h
  | cons p rest ih =>
    obtain ⟨k', m⟩ := p
    by_cases hk : k' = k
    · rw [updateKey, if_pos hk, lookupKey, if_pos rfl]
    · rw [updateKey, if_neg hk, lookupKey, if_neg hk]
      rw [lookupKey, if_neg hk] at h
      exact ih h

theorem erase_getLast_of_nodup (l : List String) (hnd : l.Nodup) (h : l ≠ []) :
    l.erase (l.getLast h) = l.dropLast := by
  induction l with
  | nil => exact absurd rfl h
  | cons x rest ih =>
    cases rest with
    | nil => simp [List.getLast]
    | cons y t =>
      have hr : (y :: t) ≠ [] := by simp
      have hlast : (x :: y :: t).getLast h = (y :: t).getLast hr := List.getLast_cons hr
      have hx : ¬(x = (x :: y :: t).getLast h) := by
        rw [hlast]
        intro hEq
        have hmem : (y :: t).getLast hr ∈ y :: t := List.getLast_mem hr
        rw [← hEq] at hmem
        exact (List.nodup_cons.mp hnd).1 hmem
      rw [List.erase_cons, if_neg (by simpa using hx)]
      rw [List.dropLast_cons₂]
      have := ih (List.nodup_cons.mp hnd).2 hr
      rw [hlast, this]

end ThreadSafeCache

/-! ### Consistency (map/list) preservation -/

namespace ThreadSafeCache

theorem nodup_keys_of_consistent {α : Type} {s : CacheState α} (h : consistent s) :
    (s.cache.map Prod.fst).Nodup := h.1.symm.nodup h.2

theorem consistent_init (α : Type) (ms : Nat) (dt : Option Nat) :
    consistent (init α ms dt) := by
  exact ⟨List.Perm.refl _, List.nodup_nil⟩

theorem consistent_clear {α : Type} (s : CacheState α) : consistent (clear s) := by
  exact ⟨List.Perm.refl _, List.nodup_nil⟩

theorem consistent_evictLRU {α : Type} {t : CacheState α} (h : consistent t) :
    consistent (evictLRU t) := by
  obtain ⟨hperm, hnd⟩ := h
  unfold evictLRU
  by_cases he : t.cache.isEmpty
  · rw [if_pos he]
    exact ⟨hperm, hnd⟩
  · rw [if_neg he]
    cases hlast : t.order.getLast? with
    | none => exact ⟨hperm, hnd⟩
    | some lru =>
      have hne : t.order ≠ [] := by
        intro h0
        rw [h0] at hlast
        exact Option.noConfusion hlast
      have hlru : t.order.getLast hne = lru := by
        have hg := List.getLast?_eq_getLast t.order hne
        rw [hg] at hlast
        exact Option.some.inj hlast
      refine ⟨?_, ?_⟩
      · show List.Perm ((delKey t.cache lru).map Prod.fst) t.order.dropLast
        rw [map_fst_delKey, removeNode_eq_erase,
          ← erase_getLast_of_nodup t.order hnd hne, hlru]
        exact hperm.erase lru
      · show (t.order.dropLast).Nodup
        rw [← erase_getLast_of_nodup t.order hnd hne]
        exact List.Nodup.erase _ hnd

theorem consistent_put {α : Type} (s : CacheState α) (key : Option String) (v : α)
    (ttl : Option Nat) (now : Nat) (h : consistent s) :
    consistent (put s key v ttl now).2 := by
  obtain ⟨hperm, hnd⟩ := h
  cases key with
  | none => exact ⟨hperm, hnd⟩
  | some k =>
    by_cases hk : k = ""
    · simp only [put, if_pos hk]
      exact ⟨hperm, hnd⟩
    · simp only [put, if_neg hk]
      cases hl : lookupKey s.cache k with
      | some n =>
        dsimp only
        have hmem : k ∈ s.cache.map Prod.fst := lookupKey_mem hl
        have hmemo : k ∈ s.order := (hperm.mem_iff).mp hmem
        refine ⟨?_, ?_⟩
        · show List.Perm ((updateKey s.cache k _).map Prod.fst) (addToFront (removeNode s.order k) k)
          rw [map_fst_updateKey]
          unfold addToFront
          rw [removeNode_eq_erase]
          exact hperm.trans (List.perm_cons_erase hmemo)
        · show (addToFront (removeNode s.order k) k).Nodup
          unfold addToFront
          rw [removeNode_eq_erase]
          exact List.nodup_cons.mpr ⟨hnd.not_mem_erase, List.Nodup.erase k hnd⟩
      | none =>
        dsimp only
        have hmem : k ∉ s.cache.map Prod.fst := (lookupKey_eq_none_iff _ _).mp hl
        have hmemo : k ∉ s.order := fun hc => hmem (hperm.mem_iff.mpr hc)
        have hcons : consistent { s with
            cache := (k, (⟨v, resolveExpiry s ttl now⟩ : CacheNode α)) :: s.cache,
            order := addToFront s.order k } := by
          refine ⟨?_, ?_⟩
          · show List.Perm (k :: s.cache.map Prod.fst) (k :: s.order)
            exact hperm.cons k
          · exact List.nodup_cons.mpr ⟨hmemo, hnd⟩
        split
        · exact consistent_evictLRU hcons
        · exact hcons

theorem consistent_get {α : Type} (s : CacheState α) (k : String) (now : Nat)
    (h : consistent s) : consistent (get s k now).2 := by
  obtain ⟨hperm, hnd⟩ := h
  unfold get
  cases hl : lookupKey s.cache k with
  | none => exact ⟨hperm, hnd⟩
  | some n =>
    dsimp only
    by_cases he : isExpired n now
    · rw [if_pos he]
      refine ⟨?_, ?_⟩
      · show List.Perm ((delKey s.cache k).map Prod.fst) (removeNode s.order k)
        rw [map_fst_delKey, removeNode_eq_erase, removeNode_eq_erase]
        exact hperm.erase k
      · show (removeNode s.order k).Nodup
        rw [removeNode_eq_erase]
        exact List.Nodup.erase _ hnd
    · rw [if_neg he]
      have hmem : k ∈ s.cache.map Prod.fst := lookupKey_mem hl
      have hmemo : k ∈ s.order := (hperm.mem_iff).mp hmem
      refine ⟨?_, ?_⟩
      · show List.Perm (s.cache.map Prod.fst) (addToFront (removeNode s.order k) k)
        unfold addToFront
        rw [removeNode_eq_erase]
        exact hperm.trans (List.perm_cons_erase hmemo)
      · show (addToFront (removeNode s.order k) k).Nodup
        unfold addToFront
        rw [removeNode_eq_erase]
        exact List.nodup_cons.mpr ⟨hnd.not_mem_erase, List.Nodup.erase k hnd⟩

theorem consistent_delete {α : Type} (s : CacheState α) (k : String)
    (h : consistent s) : consistent (delete s k).2 := by
  obtain ⟨hperm, hnd⟩ := h
  unfold delete
  cases hl : lookupKey s.cache k with
  | none => exact ⟨hperm, hnd⟩
  | some n =>
    refine ⟨?_, ?_⟩
    · show List.Perm ((delKey s.cache k).map Prod.fst) (removeNode s.order k)
      rw [map_fst_delKey, removeNode_eq_erase, removeNode_eq_erase]
      exact hperm.erase k
    · show (removeNode s.order k).Nodup
      rw [removeNode_eq_erase]
      exact List.Nodup.erase _ hnd

theorem consistent_applyOp {α : Type} (s : CacheState α) (op : Op α)
    (h : consistent s) : consistent (applyOp s op) := by
  cases op with
  | put k v t n => exact consistent_put s k v t n h
  | get k n => exact consistent_get s k n h
  | delete k => exact consistent_delete s k h
  | clear => exact consistent_clear s

end ThreadSafeCache

/-! ### Branch characterizations of the operations -/

namespace ThreadSafeCache

theorem put_none_eq {α : Type} (s : CacheState α) (v : α) (ttl : Option Nat) (now : Nat) :
    put s none v ttl now = (.error "Key cannot be None or empty", s) := rfl

theorem put_empty_eq {α : Type} (s : CacheState α) (v : α) (ttl : Option Nat) (now : Nat) :
    put s (some "") v ttl now = (.error "Key cannot be None or empty", s) := rfl

theorem put_update_eq {α : Type} (s : CacheState α) (k : String) (v : α) (ttl : Option Nat)
    (now : Nat) (hk : k ≠ "") {n : CacheNode α} (hl : lookupKey s.cache k = some n) :
    put s (some k) v ttl now =
      (.ok (), { s with cache := updateKey s.cache k ⟨v, resolveExpiry s ttl now⟩,
                        order := k :: removeNode s.order k }) := by
  simp only [put, if_neg hk, hl, addToFront]

theorem put_new_noevict_eq {α : Type} (s : CacheState α) (k : String) (v : α) (ttl : Option Nat)
    (now : Nat) (hk : k ≠ "") (hl : lookupKey s.cache k = none)
    (hsize : s.cache.length + 1 ≤ s.max_size) :
    put s (some k) v ttl now =
      (.ok (), { s with cache := (k, (⟨v, resolveExpiry s ttl now⟩ : CacheNode α)) :: s.cache,
                        order := k :: s.order }) := by
  simp only [put, if_neg hk, hl, addToFront]
  rw [if_neg]
  simp only [List.length_cons]
  exact Nat.not_lt.mpr hsize

theorem put_new_evict_eq {α : Type} (s : CacheState α) (k : String) (v : α) (ttl : Option Nat)
    (now : Nat) (hk : k ≠ "") (hl : lookupKey s.cache k = none)
    (hsize : s.max_size < s.cache.length + 1) :
    put s (some k) v ttl now =
      (.ok (), evictLRU
        { s with cache := (k, (⟨v, resolveExpiry s ttl now⟩ : CacheNode α)) :: s.cache,
                 order := k :: s.order }) := by
  simp only [put, if_neg hk, hl, addToFront]
  rw [if_pos]
  simpa using hsize

theorem get_miss_eq {α : Type} (s : CacheState α) (k : String) (now : Nat)
    (hl : lookupKey s.cache k = none) :
    get s k now = (none, { s with misses := s.misses + 1 }) := by
  simp only [get, hl]

theorem get_expired_eq {α : Type} (s : CacheState α) (k : String) (now : Nat)
    {n : CacheNode α} (hl : lookupKey s.cache k = some n) (he : isExpired n now = true) :
    get s k now = (none, { s with order := removeNode s.order k,
                                  cache := delKey s.cache k,
                                  expired_removals := s.expired_removals + 1,
                                  misses := s.misses + 1 }) := by
  simp only [get, hl, he, if_true]

theorem get_hit_eq {α : Type} (s : CacheState α) (k : String) (now : Nat)
    {n : CacheNode α} (hl : lookupKey s.cache k = some n) (he : isExpired n now = false) :
    get s k now = (some n.value, { s with order := k :: removeNode s.order k,
                                          hits := s.hits + 1 }) := by
  simp only [get, hl, he, if_false, addToFront, Bool.false_eq_true]

theorem delete_found_eq {α : Type} (s : CacheState α) (k : String)
    {n : CacheNode α} (hl : lookupKey s.cache k = some n) :
    delete s k = (true, { s with order := removeNode s.order k,
                                 cache := delKey s.cache k }) := by
  simp only [delete, hl]

theorem delete_missing_eq {α : Type} (s : CacheState α) (k : String)
    (hl : lookupKey s.cache k = none) :
    delete s k = (false, s) := by
  simp only [delete, hl]

theorem evictLRU_frame {α : Type} (s : CacheState α) :
    (evictLRU s).hits = s.hits ∧ (evictLRU s).misses = s.misses ∧
    (evictLRU s).expired_removals = s.expired_removals ∧
    (evictLRU s).max_size = s.max_size := by
  unfold evictLRU
  split
  · exact ⟨rfl, rfl, rfl, rfl⟩
  · split
    · exact ⟨rfl, rfl, rfl, rfl⟩
    · exact ⟨rfl, rfl, rfl, rfl⟩

end ThreadSafeCache

/-! ### Eviction after a fresh insertion, and counter bookkeeping -/

namespace ThreadSafeCache

theorem put_new_evict_state {α : Type} (s : CacheState α) (k : String) (node : CacheNode α)
    (hord : s.order ≠ []) (hno : k ∉ s.order) :
    evictLRU { s with cache := (k, node) :: s.cache, order := k :: s.order } =
      { s with cache := (k, node) :: delKey s.cache (s.order.getLast hord),
               order := k :: s.order.dropLast,
               evictions := s.evictions + 1 } := by
  unfold evictLRU
  rw [if_neg (by simp)]
  have hlast : (k :: s.order).getLast? = some (s.order.getLast hord) := by
    rw [List.getLast?_cons, List.getLast?_eq_getLast s.order hord]
    rfl
  simp only [hlast]
  have hkl : ¬(k = s.order.getLast hord) := fun he => hno (he ▸ List.getLast_mem hord)
  rw [delKey, if_neg hkl, List.dropLast_cons_of_ne_nil hord]

theorem evictLRU_insert_length {α : Type} (s : CacheState α) (k : String)
    (node : CacheNode α) (h : consistent s) (hl : lookupKey s.cache k = none) :
    (evictLRU { s with cache := (k, node) :: s.cache,
                       order := k :: s.order }).cache.length = s.cache.length := by
  obtain ⟨hperm, hnd⟩ := h
  by_cases hord : s.order = []
  · have hpn : (List.map Prod.fst s.cache).Perm [] := by
      rw [← hord]
      exact hperm
    have hcache : s.cache = [] := List.map_eq_nil_iff.mp hpn.eq_nil
    rw [hcache, hord]
    simp [evictLRU, delKey]
  · have hmem : k ∉ s.cache.map Prod.fst := (lookupKey_eq_none_iff _ _).mp hl
    have hno : k ∉ s.order := fun hc => hmem (hperm.mem_iff.mpr hc)
    rw [put_new_evict_state s k node hord hno]
    have hlru : s.order.getLast hord ∈ s.cache.map Prod.fst :=
      hperm.mem_iff.mpr (List.getLast_mem hord)
    have hdel := length_delKey_of_mem hlru
    simp only [List.length_cons]
    omega

theorem put_hits_misses {α : Type} (s : CacheState α) (key : Option String) (v : α)
    (ttl : Option Nat) (now : Nat) :
    (put s key v ttl now).2.hits = s.hits ∧
    (put s key v ttl now).2.misses = s.misses ∧
    (put s key v ttl now).2.expired_removals = s.expired_removals := by
  cases key with
  | none => exact ⟨rfl, rfl, rfl⟩
  | some k =>
    by_cases hk : k = ""
    · subst hk
      rw [put_empty_eq]
      exact ⟨rfl, rfl, rfl⟩
    · simp only [put, if_neg hk]
      cases hl : lookupKey s.cache k with
      | some n => exact ⟨rfl, rfl, rfl⟩
      | none =>
        dsimp only
        split
        · exact ⟨(evictLRU_frame _).1, (evictLRU_frame _).2.1, (evictLRU_frame _).2.2.1⟩
        · exact ⟨rfl, rfl, rfl⟩

theorem get_hits_misses {α : Type} (s : CacheState α) (k : String) (now : Nat) :
    ((get s k now).2.hits = s.hits + 1 ∧ (get s k now).2.misses = s.misses) ∨
    ((get s k now).2.hits = s.hits ∧ (get s k now).2.misses = s.misses + 1) := by
  unfold get
  cases hl : lookupKey s.cache k with
  | none => exact Or.inr ⟨rfl, rfl⟩
  | some n =>
    dsimp only
    by_cases he : isExpired n now
    · rw [if_pos he]
      exact Or.inr ⟨rfl, rfl⟩
    · rw [if_neg he]
      exact Or.inl ⟨rfl, rfl⟩

theorem delete_hits_misses {α : Type} (s : CacheState α) (k : String) :
    (delete s k).2.hits = s.hits ∧ (delete s k).2.misses = s.misses ∧
    (delete s k).2.evictions = s.evictions ∧
    (delete s k).2.expired_removals = s.expired_removals := by
  unfold delete
  cases hl : lookupKey s.cache k with
  | none => exact ⟨rfl, rfl, rfl, rfl⟩
  | some n => exact ⟨rfl, rfl, rfl, rfl⟩

theorem applyOp_requests {α : Type} (s : CacheState α) (op : Op α) :
    (applyOp s op).hits + (applyOp s op).misses
      = s.hits + s.misses + (if isGet op = true then 1 else 0) := by
  cases op with
  | put k v t n =>
    have h := put_hits_misses s k v t n
    simp only [applyOp, isGet, h.1, h.2.1, Bool.false_eq_true, if_false]
    omega
  | get k n =>
    rcases get_hits_misses s k n with ⟨h1, h2⟩ | ⟨h1, h2⟩ <;>
      simp only [applyOp, isGet, h1, h2, if_true] <;> omega
  | delete k =>
    have h := delete_hits_misses s k
    simp only [applyOp, isGet, h.1, h.2.1, Bool.false_eq_true, if_false]
    omega
  | clear =>
    simp only [applyOp, isGet, clear, Bool.false_eq_true, if_false]
    omega

theorem run_total_requests {α : Type} (s : CacheState α) (ops : List (Op α)) :
    (run s ops).hits + (run s ops).misses
      = s.hits + s.misses + ops.countP isGet := by
  induction ops generalizing s with
  | nil => simp [run]
  | cons op ops ih =>
    rw [run, ih, List.countP_cons, applyOp_requests]
    by_cases hg : isGet op = true
    · rw [if_pos hg]
      omega
    · rw [if_neg hg]
      omega

end ThreadSafeCache

/-! ### Example states used by the claim witnesses -/

namespace ThreadSafeCache

/-- A max-size-2 cache holding "a" (older). -/
def exA : CacheState Nat := (put (init Nat 2 none) (some "a") 1 none 5).2

/-- A max-size-2 cache holding "a" (LRU) and "b" (MRU): the next fresh put
must evict "a". -/
def exAB : CacheState Nat := (put exA (some "b") 2 none 6).2

/-- A cache with one entry "k" put at time 100 with ttl 10 (expiry 110). -/
def exTtl : CacheState Nat := (put (init Nat 5 none) (some "k") 3 (some 10) 100).2

/-- A cache that has served 2 hits and 1 miss. -/
def exStats : CacheState Nat := (get (get (get exA "a" 6).2 "a" 7).2 "zzz" 8).2

end ThreadSafeCache

namespace ThreadSafeCache

/-- C2: after every public operation (Put, Get, Delete, Clear) on a
consistent state, the recency sequence and the lookup index still describe
exactly the same set of entries: the index's keys are a permutation of the
walked sequence and the sequence has no duplicates, so sizes agree, every
indexed node occurs exactly once, and there are no orphans in either
direction. -/
theorem c2_public_ops_preserve_consistency {α : Type} (s : CacheState α) (h : consistent s) :
    (∀ (key : Option String) (v : α) (ttl : Option Nat) (now : Nat),
        consistent (put s key v ttl now).2) ∧
    (∀ (k : String) (now : Nat), consistent (get s k now).2) ∧
    (∀ k : String, consistent (delete s k).2) ∧
    consistent (clear s) ∧
    s.cache.length = s.order.length := by
  refine ⟨fun key v ttl now => consistent_put s key v ttl now h,
          fun k now => consistent_get s k now h,
          fun k => consistent_delete s k h,
          consistent_clear s, ?_⟩
  have := h.1.length_eq
  simpa using this

theorem c2_witness : consistent (clear exAB) ∧ consistent (delete exAB "a").2 :=
  ⟨(c2_public_ops_preserve_consistency exAB (by decide)).2.2.2.1,
   (c2_public_ops_preserve_consistency exAB (by decide)).2.2.1 "a"⟩

/-- C4: Put of a key already present updates that entry's value and expiry
in place, promotes it to the most-recently-used position, and leaves the
size and the evictions counter (and hits/misses) unchanged: no eviction
happens on update. -/
theorem c4_put_update {α : Type} (s : CacheState α) (k : String) (v : α)
    (ttl : Option Nat) (now : Nat) (hk : k ≠ "") {n : CacheNode α}
    (hl : lookupKey s.cache k = some n) :
    (put s (some k) v ttl now).1 = .ok () ∧
    lookupKey (put s (some k) v ttl now).2.cache k = some ⟨v, resolveExpiry s ttl now⟩ ∧
    (put s (some k) v ttl now).2.order = k :: removeNode s.order k ∧
    (put s (some k) v ttl now).2.cache.length = s.cache.length ∧
    (put s (some k) v ttl now).2.evictions = s.evictions ∧
    (put s (some k) v ttl now).2.hits = s.hits ∧
    (put s (some k) v ttl now).2.misses = s.misses := by
  rw [put_update_eq s k v ttl now hk hl]
  exact ⟨rfl, lookupKey_updateKey_self _ hl, rfl, length_updateKey _ _ _, rfl, rfl, rfl⟩

theorem c4_witness :
    lookupKey (put exAB (some "a") (9:Nat) none 7).2.cache "a" = some ⟨9, 0⟩ ∧
    (put exAB (some "a") (9:Nat) none 7).2.evictions = 0 := by
  have h := c4_put_update exAB "a" (9:Nat) none 7 (by decide) (n := ⟨1, 0⟩) (by decide)
  refine ⟨?_, ?_⟩
  · have := h.2.1
    simpa using this
  · have := h.2.2.2.2.1
    rw [this]
    decide

/-- C6: Put with an absent (None) or empty key raises the ValueError before
any mutation, with the entire state (index, sequence and every counter)
unchanged; a Put with any nonempty key never raises. -/
theorem c6_put_invalid_key {α : Type} (s : CacheState α) (v : α) (ttl : Option Nat)
    (now : Nat) :
    put s none v ttl now = (.error "Key cannot be None or empty", s) ∧
    put s (some "") v ttl now = (.error "Key cannot be None or empty", s) ∧
    (∀ k : String, k ≠ "" → (put s (some k) v ttl now).1 = .ok ()) := by
  refine ⟨put_none_eq s v ttl now, put_empty_eq s v ttl now, ?_⟩
  intro k hk
  simp only [put, if_neg hk]
  cases hl : lookupKey s.cache k with
  | some n => rfl
  | none =>
    dsimp only
    split
    · rfl
    · rfl

theorem c6_witness :
    put exA (some "") (7:Nat) none 9 = (.error "Key cannot be None or empty", exA) ∧
    (put exA (some "x") (7:Nat) none 9).1 = .ok () :=
  ⟨(c6_put_invalid_key exA 7 none 9).2.1,
   (c6_put_invalid_key exA 7 none 9).2.2 "x" (by decide)⟩

/-- C7: get_stats returns the snapshot where every counter is copied from
the state, total_requests = hits + misses, current_size is the number of
indexed entries, and hit_rate is hits/(hits+misses), or 0 when there have
been no requests; get_stats is a pure function of the state and mutates
nothing. -/
theorem c7_get_stats {α : Type} (s : CacheState α) :
    (get_stats s).hits = s.hits ∧
    (get_stats s).misses = s.misses ∧
    (get_stats s).evictions = s.evictions ∧
    (get_stats s).expired_removals = s.expired_removals ∧
    (get_stats s).total_requests = (get_stats s).hits + (get_stats s).misses ∧
    (get_stats s).current_size = s.cache.length ∧
    (s.hits + s.misses = 0 → (get_stats s).hit_rate = 0) ∧
    (0 < s.hits + s.misses →
        (get_stats s).hit_rate = (s.hits : ℚ) / ((s.hits : ℚ) + (s.misses : ℚ))) := by
  refine ⟨rfl, rfl, rfl, rfl, rfl, rfl, ?_, ?_⟩
  · intro h0
    simp [get_stats, h0]
  · intro hpos
    show (if 0 < s.hits + s.misses then (s.hits : ℚ) / ((s.hits + s.misses : Nat) : ℚ) else 0)
        = (s.hits : ℚ) / ((s.hits : ℚ) + (s.misses : ℚ))
    rw [if_pos hpos]
    push_cast
    rfl

theorem c7_witness : (get_stats exStats).hit_rate = (2 : ℚ) / 3 := by
  have h := (c7_get_stats exStats).2.2.2.2.2.2.2 (by decide)
  have h2 : exStats.hits = 2 := by decide
  have h1 : exStats.misses = 1 := by decide
  rw [h, h2, h1]
  norm_num

/-- C8: Clear empties the index and resets the sequence to the empty
(sentinels-linked) state while preserving all four lifetime counters;
Delete removes the entry from both structures and returns true exactly
when the key was present (false otherwise), never touching hits or
misses. -/
theorem c8_clear_delete {α : Type} (s : CacheState α) (h : consistent s) :
    (clear s).cache = [] ∧ (clear s).order = [] ∧
    (clear s).hits = s.hits ∧ (clear s).misses = s.misses ∧
    (clear s).evictions = s.evictions ∧
    (clear s).expired_removals = s.expired_removals ∧
    (∀ k : String, (delete s k).1 = true ↔ lookupKey s.cache k ≠ none) ∧
    (∀ (k : String) (n : CacheNode α), lookupKey s.cache k = some n →
        lookupKey (delete s k).2.cache k = none ∧ k ∉ (delete s k).2.order) ∧
    (∀ k : String, lookupKey s.cache k = none → (delete s k).2 = s) ∧
    (∀ k : String, (delete s k).2.hits = s.hits ∧ (delete s k).2.misses = s.misses) := by
  refine ⟨rfl, rfl, rfl, rfl, rfl, rfl, ?_, ?_, ?_, ?_⟩
  · intro k
    cases hl : lookupKey s.cache k with
    | none =>
      rw [delete_missing_eq s k hl]
      simp
    | some n =>
      rw [delete_found_eq s k hl]
      simp [hl]
  · intro k n hl
    rw [delete_found_eq s k hl]
    constructor
    · exact lookupKey_delKey_self k (nodup_keys_of_consistent h)
    · show k ∉ removeNode s.order k
      rw [removeNode_eq_erase]
      exact h.2.not_mem_erase
  · intro k hl
    rw [delete_missing_eq s k hl]
  · intro k
    exact ⟨(delete_hits_misses s k).1, (delete_hits_misses s k).2.1⟩

theorem c8_witness :
    (clear exStats).hits = 2 ∧ (delete exAB "a").1 = true ∧ (delete exAB "zz").1 = false := by
  refine ⟨?_, ?_, ?_⟩
  · rw [(c8_clear_delete exStats (by decide)).2.2.1]
    decide
  · rw [(c8_clear_delete exAB (by decide)).2.2.2.2.2.2.1 "a"]
    decide
  · have h := (c8_clear_delete exAB (by decide)).2.2.2.2.2.2.1 "zz"
    have hfalse : ¬((delete exAB "zz").1 = true) := by
      rw [h]
      decide
    simpa using hfalse

/-- C9 as stated is false: `cleanup_interval` is not an accepted
construction option; no choice of constructor arguments yields a wake
period other than the hard-coded 60. -/
theorem c9_counterexample :
    ¬ ∃ (ms : Nat) (dt : Option Nat), (init Nat ms dt).cleanup_interval ≠ 60 := by
  rintro ⟨ms, dt, h⟩
  exact h rfl

/-- C9 amended: the construction interface (`__init__` and the
`create_cache` factory) accepts `max_size` (default 1000) and
`default_ttl` (optional, default none) only; `cleanup_interval` is not a
configuration option — the engine fixes the Reaper wake period at 60. -/
theorem c9_construction_interface :
    (∀ (ms : Nat) (dt : Option Nat),
        (init Nat ms dt).max_size = ms ∧
        (init Nat ms dt).default_ttl = dt ∧
        (init Nat ms dt).cleanup_interval = 60 ∧
        create_cache Nat ms dt = init Nat ms dt) ∧
    (create_cache_default Nat).max_size = 1000 ∧
    (create_cache_default Nat).default_ttl = none ∧
    (create_cache_default Nat).cleanup_interval = 60 :=
  ⟨fun _ _ => ⟨rfl, rfl, rfl, rfl⟩, rfl, rfl, rfl⟩

/-- C10: every Get increments exactly one of hits/misses (so hits+misses
grows by exactly one per Get); Put, Delete and Clear never change hits or
misses; hence after any sequence of public calls from construction,
total_requests reported by get_stats equals the number of Get calls. -/
theorem c10_request_counting {α : Type} :
    (∀ (s : CacheState α) (k : String) (now : Nat),
        ((get s k now).2.hits = s.hits + 1 ∧ (get s k now).2.misses = s.misses) ∨
        ((get s k now).2.hits = s.hits ∧ (get s k now).2.misses = s.misses + 1)) ∧
    (∀ (s : CacheState α) (key : Option String) (v : α) (ttl : Option Nat) (now : Nat),
        (put s key v ttl now).2.hits = s.hits ∧ (put s key v ttl now).2.misses = s.misses) ∧
    (∀ (s : CacheState α) (k : String),
        (delete s k).2.hits = s.hits ∧ (delete s k).2.misses = s.misses) ∧
    (∀ s : CacheState α, (clear s).hits = s.hits ∧ (clear s).misses = s.misses) ∧
    (∀ (ms : Nat) (dt : Option Nat) (ops : List (Op α)),
        (get_stats (run (init α ms dt) ops)).total_requests = ops.countP isGet) := by
  refine ⟨get_hits_misses,
          fun s key v ttl now =>
            ⟨(put_hits_misses s key v ttl now).1, (put_hits_misses s key v ttl now).2.1⟩,
          fun s k => ⟨(delete_hits_misses s k).1, (delete_hits_misses s k).2.1⟩,
          fun s => ⟨rfl, rfl⟩, ?_⟩
  intro ms dt ops
  show (run (init α ms dt) ops).hits + (run (init α ms dt) ops).misses = ops.countP isGet
  rw [run_total_requests]
  simp only [init]
  omega

end ThreadSafeCache

namespace ThreadSafeCache

/-- C3: for every Get: an absent key records a miss and returns absent; a
present-but-expired key is removed from index and sequence, bumps
expired_removals and misses by one each and returns absent, and any later
Get of the same key is a plain miss, so expired_removals is bumped exactly
once; a present live key is promoted to most-recently-used, bumps hits and
returns its value. -/
theorem c3_get_semantics {α : Type} (s : CacheState α) (k : String) (now : Nat)
    (h : consistent s) :
    (lookupKey s.cache k = none →
        get s k now = (none, { s with misses := s.misses + 1 })) ∧
    (∀ n : CacheNode α, lookupKey s.cache k = some n → isExpired n now = true →
        (get s k now).1 = none ∧
        lookupKey (get s k now).2.cache k = none ∧
        k ∉ (get s k now).2.order ∧
        (get s k now).2.expired_removals = s.expired_removals + 1 ∧
        (get s k now).2.misses = s.misses + 1 ∧
        (get s k now).2.hits = s.hits ∧
        (∀ now2 : Nat,
            (get (get s k now).2 k now2).1 = none ∧
            (get (get s k now).2 k now2).2.expired_removals = s.expired_removals + 1 ∧
            (get (get s k now).2 k now2).2.misses = s.misses + 2)) ∧
    (∀ n : CacheNode α, lookupKey s.cache k = some n → isExpired n now = false →
        get s k now = (some n.value,
          { s with order := k :: removeNode s.order k, hits := s.hits + 1 })) := by
  refine ⟨fun hl => get_miss_eq s k now hl, ?_, ?_⟩
  · intro n hl he
    rw [get_expired_eq s k now hl he]
    have hgone : lookupKey (delKey s.cache k) k = none :=
      lookupKey_delKey_self k (nodup_keys_of_consistent h)
    refine ⟨rfl, hgone, ?_, rfl, rfl, rfl, ?_⟩
    · show k ∉ removeNode s.order k
      rw [removeNode_eq_erase]
      exact h.2.not_mem_erase
    · intro now2
      rw [get_miss_eq _ k now2 hgone]
      exact ⟨rfl, rfl, rfl⟩
  · intro n hl he
    exact get_hit_eq s k now hl he

theorem c3_witness :
    (get exTtl "k" 110).1 = some 3 ∧
    (get exTtl "k" 111).1 = none ∧
    (get (get exTtl "k" 111).2 "k" 112).2.expired_removals = 1 := by
  have hlive := (c3_get_semantics exTtl "k" 110 (by decide)).2.2 ⟨3, 110⟩ (by decide) (by decide)
  have hexp := (c3_get_semantics exTtl "k" 111 (by decide)).2.1 ⟨3, 110⟩ (by decide) (by decide)
  refine ⟨?_, hexp.1, ?_⟩
  · rw [hlive]
  · have h2 := hexp.2.2.2.2.2.2 112
    rw [h2.2.1]
    decide

/-- C5: a Put's effective expiry is resolved with precedence explicit ttl,
then default_ttl, then the never-expires sentinel 0; with a ttl the stored
expiresAt is now + ttl; the sentinel is distinct from any ttl-derived
expiry (a zero ttl at a positive clock still yields a nonzero expiresAt);
and an entry is expired exactly when its expiry is set and now is strictly
past it — equality at the boundary is not expired. -/
theorem c5_expiry_semantics {α : Type} (s : CacheState α) (k : String) (v : α) (now : Nat)
    (hk : k ≠ "") (hl : lookupKey s.cache k = none)
    (hroom : s.cache.length + 1 ≤ s.max_size) :
    (∀ t : Nat, lookupKey (put s (some k) v (some t) now).2.cache k = some ⟨v, now + t⟩) ∧
    (∀ d : Nat, s.default_ttl = some d →
        lookupKey (put s (some k) v none now).2.cache k = some ⟨v, now + d⟩) ∧
    (s.default_ttl = none →
        lookupKey (put s (some k) v none now).2.cache k = some ⟨v, 0⟩) ∧
    (∀ node : CacheNode α, isExpired node node.expiry = false) ∧
    (∀ (node : CacheNode α) (now2 : Nat), node.expiry = 0 → isExpired node now2 = false) ∧
    (∀ (node : CacheNode α) (now2 : Nat), 0 < node.expiry → node.expiry < now2 →
        isExpired node now2 = true) ∧
    (0 < now → ∀ t : Nat, resolveExpiry s (some t) now ≠ 0) := by
  refine ⟨?_, ?_, ?_, ?_, ?_, ?_, ?_⟩
  · intro t
    rw [put_new_noevict_eq s k v (some t) now hk hl hroom]
    show (if k = k then some (⟨v, resolveExpiry s (some t) now⟩ : CacheNode α)
          else lookupKey s.cache k) = some ⟨v, now + t⟩
    rw [if_pos rfl]
    rfl
  · intro d hd
    rw [put_new_noevict_eq s k v none now hk hl hroom]
    show (if k = k then some (⟨v, resolveExpiry s none now⟩ : CacheNode α)
          else lookupKey s.cache k) = some ⟨v, now + d⟩
    rw [if_pos rfl]
    simp [resolveExpiry, hd]
  · intro hd
    rw [put_new_noevict_eq s k v none now hk hl hroom]
    show (if k = k then some (⟨v, resolveExpiry s none now⟩ : CacheNode α)
          else lookupKey s.cache k) = some ⟨v, 0⟩
    rw [if_pos rfl]
    simp [resolveExpiry, hd]
  · intro node
    simp [isExpired]
  · intro node now2 h0
    simp [isExpired, h0]
  · intro node now2 h1 h2
    simp [isExpired, h1, h2]
  · intro hnow t
    simp [resolveExpiry]
    omega

theorem c5_witness :
    lookupKey (put (init Nat 5 (some 30)) (some "p") (1:Nat) (some 7) 100).2.cache "p"
        = some ⟨1, 107⟩ ∧
    lookupKey (put (init Nat 5 (some 30)) (some "p") (1:Nat) none 100).2.cache "p"
        = some ⟨1, 130⟩ ∧
    isExpired (⟨(1:Nat), 107⟩ : CacheNode Nat) 107 = false ∧
    resolveExpiry (init Nat 5 (some 30)) (some 0) 100 ≠ 0 := by
  have h := c5_expiry_semantics (init Nat 5 (some 30)) "p" (1:Nat) 100
    (by decide) (by decide) (by decide)
  exact ⟨h.1 7, h.2.1 30 rfl, h.2.2.2.1 ⟨1, 107⟩, h.2.2.2.2.2.2 (by decide) 0⟩

/-- C1: a Put of a new key into a full consistent cache (insertion would
exceed max_size, a positive bound) evicts exactly one entry — the
tail-most, least-recently-used one: that key leaves both the index and the
sequence, every other key's binding is untouched, evictions grows by one,
and the size after the Put is back within max_size; moreover every Put
(any key, any branch) preserves current_size ≤ max_size. -/
theorem c1_put_eviction {α : Type} :
    (∀ (s : CacheState α) (k : String) (v : α) (ttl : Option Nat) (now : Nat),
      consistent s → k ≠ "" → lookupKey s.cache k = none →
      s.cache.length ≤ s.max_size → s.max_size < s.cache.length + 1 →
      0 < s.max_size →
      ∃ lru : String,
        s.order.getLast? = some lru ∧
        lookupKey (put s (some k) v ttl now).2.cache lru = none ∧
        lru ∉ (put s (some k) v ttl now).2.order ∧
        (∀ k2 : String, k2 ≠ lru → k2 ≠ k →
            lookupKey (put s (some k) v ttl now).2.cache k2 = lookupKey s.cache k2) ∧
        (put s (some k) v ttl now).2.cache.length = s.cache.length ∧
        (put s (some k) v ttl now).2.evictions = s.evictions + 1 ∧
        (put s (some k) v ttl now).2.cache.length ≤ s.max_size) ∧
    (∀ (s : CacheState α) (key : Option String) (v : α) (ttl : Option Nat) (now : Nat),
      consistent s → s.cache.length ≤ s.max_size →
      (put s key v ttl now).2.cache.length ≤ s.max_size) := by
  constructor
  · intro s k v ttl now hcons hk hl hle hfull hpos
    obtain ⟨hperm, hnd⟩ := hcons
    have hkeys : (s.cache.map Prod.fst).Nodup := hperm.symm.nodup hnd
    have hmem : k ∉ s.cache.map Prod.fst := (lookupKey_eq_none_iff _ _).mp hl
    have hno : k ∉ s.order := fun hc => hmem (hperm.mem_iff.mpr hc)
    have hlen : s.cache.length = s.max_size := Nat.le_antisymm hle (by omega)
    have hordne : s.order ≠ [] := by
      intro h0
      have h1 := hperm.length_eq
      rw [h0] at h1
      simp only [List.length_map, List.length_nil] at h1
      omega
    refine ⟨s.order.getLast hordne, List.getLast?_eq_getLast s.order hordne, ?_⟩
    rw [put_new_evict_eq s k v ttl now hk hl hfull]
    rw [put_new_evict_state s k ⟨v, resolveExpiry s ttl now⟩ hordne hno]
    have hlru_ord : s.order.getLast hordne ∈ s.order := List.getLast_mem hordne
    have hlru_keys : s.order.getLast hordne ∈ s.cache.map Prod.fst :=
      hperm.mem_iff.mpr hlru_ord
    have hkl : ¬(k = s.order.getLast hordne) := fun he => hno (he ▸ hlru_ord)
    refine ⟨?_, ?_, ?_, ?_, rfl, ?_⟩
    · show (if k = s.order.getLast hordne
            then some (⟨v, resolveExpiry s ttl now⟩ : CacheNode α)
            else lookupKey (delKey s.cache (s.order.getLast hordne)) (s.order.getLast hordne))
          = none
      rw [if_neg hkl]
      exact lookupKey_delKey_self _ hkeys
    · show s.order.getLast hordne ∉ k :: s.order.dropLast
      intro hmem2
      rcases List.mem_cons.mp hmem2 with hc | hc
      · exact hkl hc.symm
      · rw [← erase_getLast_of_nodup s.order hnd hordne] at hc
        exact hnd.not_mem_erase hc
    · intro k2 h2lru h2k
      show (if k = k2 then some (⟨v, resolveExpiry s ttl now⟩ : CacheNode α)
            else lookupKey (delKey s.cache (s.order.getLast hordne)) k2)
          = lookupKey s.cache k2
      rw [if_neg (fun he => h2k he.symm)]
      exact lookupKey_delKey_ne s.cache h2lru
    · show ((k, (⟨v, resolveExpiry s ttl now⟩ : CacheNode α))
            :: delKey s.cache (s.order.getLast hordne)).length = s.cache.length
      have hdel := length_delKey_of_mem hlru_keys
      simp only [List.length_cons]
      omega
    · show ((k, (⟨v, resolveExpiry s ttl now⟩ : CacheNode α))
            :: delKey s.cache (s.order.getLast hordne)).length ≤ s.max_size
      have hdel := length_delKey_of_mem hlru_keys
      simp only [List.length_cons]
      omega
  · intro s key v ttl now hcons hle
    cases key with
    | none => exact hle
    | some k =>
      by_cases hk : k = ""
      · subst hk
        rw [put_empty_eq]
        exact hle
      · cases hl : lookupKey s.cache k with
        | some n =>
          rw [put_update_eq s k v ttl now hk hl]
          show (updateKey s.cache k ⟨v, resolveExpiry s ttl now⟩).length ≤ s.max_size
          rw [length_updateKey]
          exact hle
        | none =>
          by_cases hsize : s.max_size < s.cache.length + 1
          · rw [put_new_evict_eq s k v ttl now hk hl hsize]
            rw [evictLRU_insert_length s k ⟨v, resolveExpiry s ttl now⟩ hcons hl]
            exact hle
          · rw [put_new_noevict_eq s k v ttl now hk hl (by omega)]
            show ((k, (⟨v, resolveExpiry s ttl now⟩ : CacheNode α)) :: s.cache).length ≤ s.max_size
            simp only [List.length_cons]
            omega

theorem c1_witness :
    lookupKey (put exAB (some "c") (3:Nat) none 7).2.cache "a" = none ∧
    (put exAB (some "c") (3:Nat) none 7).2.evictions = 1 ∧
    (put exAB (some "c") (3:Nat) none 7).2.cache.length ≤ 2 := by
  obtain ⟨lru, hlast, hgone, hord, hframe, hlen, hev, hbound⟩ :=
    c1_put_eviction.1 exAB "c" (3:Nat) none 7 (by decide) (by decide) (by decide)
      (by decide) (by decide) (by decide)
  have hlru : lru = "a" := by
    have : exAB.order.getLast? = some "a" := by decide
    rw [this] at hlast
    exact (Option.some.inj hlast).symm
  subst hlru
  exact ⟨hgone, by rw [hev]; decide, by rw [hlen]; decide⟩
end ThreadSafeCache
